import Mathlib

/-!
# A verification of the `go-bsdiff` diff/patch implementation

This file gives a shallow embedding, in Lean 4, of the two source files of the
`go-bsdiff` repository: the diff generator (`pkg/bsdiff/bsdiff.go`) and the
patch applier together with its in-memory sink (`bspatch` and `util.BufWriter`).

Modelling conventions:
* Byte strings are `List Nat` (each entry a byte value `< 256`); byte
  arithmetic is done explicitly modulo 256.
* Go `int` values are `Int` (the inputs considered keep every quantity far
  from 64-bit overflow).
* A Go run-time panic (out-of-range slice index) is `Outcome.panic`; an error
  value returned by the Go code is `Outcome.err`; loops are driven by explicit
  fuel, and fuel exhaustion (which over-approximates divergence) is
  `Outcome.fuel`.
* The BZ2 codec is out of scope in the specification ("treated as an opaque
  stream compressor/decompressor"), so it is modelled as the identity codec: a
  compressing writer appends its bytes verbatim and a decompressing reader
  yields the bytes of its section verbatim.  All length bookkeeping done by
  the code is generic in the codec, so every structural property proved below
  is faithful to the code under this interpretation.
-/

-- # Definitions: the embedded program

/-- The outcome of running a fragment of Go code that does not return
normally: a returned `error` value, a run-time panic, or fuel exhaustion of
the driving loop. -/
inductive Outcome where
  | err
  | panic
  | fuel
deriving DecidableEq, Repr

/-- Result of running an embedded Go computation. -/
abbrev GoRes (α : Type) := Except Outcome α

instance {α : Type} [DecidableEq α] : DecidableEq (GoRes α) := fun a b =>
  match a, b with
  | .ok x, .ok y =>
    if h : x = y then .isTrue (by simp [h]) else .isFalse (by simp [h])
  | .error x, .error y =>
    if h : x = y then .isTrue (by simp [h]) else .isFalse (by simp [h])
  | .ok _, .error _ => .isFalse (by simp)
  | .error _, .ok _ => .isFalse (by simp)

/-- Read a list element at a `Nat` index; out of range is a Go panic. -/
def getNat {α : Type} : List α → Nat → GoRes α
  | [], _ => .error .panic
  | a :: _, 0 => .ok a
  | _ :: as, n + 1 => getNat as n

/-- Set a list element at a `Nat` index; out of range is a Go panic. -/
def setNat {α : Type} : List α → Nat → α → GoRes (List α)
  | [], _, _ => .error .panic
  | _ :: as, 0, v => .ok (v :: as)
  | a :: as, n + 1, v => do
    let r ← setNat as n v
    .ok (a :: r)

/-- Read `a[i]` for a Go `[]int` slice: an out-of-range or negative index
panics. -/
def idxI (a : List Int) (i : Int) : GoRes Int :=
  match i with
  | .ofNat n => getNat a n
  | .negSucc _ => .error .panic

/-- Write `a[i] = v` for a Go `[]int` slice: an out-of-range or negative
index panics. -/
def setI (a : List Int) (i : Int) (v : Int) : GoRes (List Int) :=
  match i with
  | .ofNat n => setNat a n v
  | .negSucc _ => .error .panic

/-- Read `a[i]` for a Go `[]byte` slice: an out-of-range or negative index
panics. -/
def idxN (a : List Nat) (i : Int) : GoRes Nat :=
  match i with
  | .ofNat n => getNat a n
  | .negSucc _ => .error .panic

/-- The 8 magic bytes `"BSDIFF40"`. -/
def magic : List Nat := [66, 83, 68, 73, 70, 70, 52, 48]

/-- Embeds `offtout` (bsdiff.go, lines 297-330): encode a Go `int` into 8
little-endian signed-magnitude bytes.  `y := |x|` and then eight rounds of
`buf[i] = y % 256; y = (y - buf[i]) / 256`; a negative `x` sets the top bit of
the last byte. -/
def offtout (x : Int) : List Nat :=
  let y : Nat := x.natAbs
  let b0 := y % 256
  let y := (y - b0) / 256
  let b1 := y % 256
  let y := (y - b1) / 256
  let b2 := y % 256
  let y := (y - b2) / 256
  let b3 := y % 256
  let y := (y - b3) / 256
  let b4 := y % 256
  let y := (y - b4) / 256
  let b5 := y % 256
  let y := (y - b5) / 256
  let b6 := y % 256
  let y := (y - b6) / 256
  let b7 := y % 256
  if x < 0 then [b0, b1, b2, b3, b4, b5, b6, b7 ||| 128]
  else [b0, b1, b2, b3, b4, b5, b6, b7]

/-- Embeds `offtin` (the applier source, lines 238-260): decode 8
little-endian signed-magnitude bytes into a Go `int`.  The top bit of byte 7
is the sign, the remaining 63 bits the magnitude. -/
def offtin (buf : List Nat) : Int :=
  let y : Nat := buf.getD 7 0 &&& 0x7f
  let y := y * 256 + buf.getD 6 0
  let y := y * 256 + buf.getD 5 0
  let y := y * 256 + buf.getD 4 0
  let y := y * 256 + buf.getD 3 0
  let y := y * 256 + buf.getD 2 0
  let y := y * 256 + buf.getD 1 0
  let y := y * 256 + buf.getD 0 0
  if buf.getD 7 0 &&& 0x80 ≠ 0 then -(y : Int) else (y : Int)

/-- Embeds `matchlen` (bsdiff.go, lines 284-295): length of the longest
common prefix of two byte strings. -/
def matchlen : List Nat → List Nat → Nat
  | a :: as, b :: bs => if a = b then matchlen as bs + 1 else 0
  | _, _ => 0

/-- Embeds `bytes.Compare` on byte strings: lexicographic order, a proper
prefix sorting first. -/
def bytesCompare : List Nat → List Nat → Int
  | [], [] => 0
  | [], _ :: _ => -1
  | _ :: _, [] => 1
  | a :: as, b :: bs =>
    if a < b then -1 else if b < a then 1 else bytesCompare as bs

/-- Embeds `util.BufWriter`: an in-memory byte sink supporting `WriteAt`,
`Write`, `Seek`, `Len` and `Bytes`. -/
structure BW where
  buf : List Nat
  pos : Int
deriving Repr, DecidableEq

/-- Embeds `util.BufWriter.WriteAt` (the applier source, lines 278-287):
if `off + len p` exceeds the current length the buffer is reallocated with
zero fill, then `p` is copied at offset `off`.  Copying at a negative offset
is the slice-bounds panic of `copy(m.buf[off:], p)`. -/
def BW.writeAt (m : BW) (p : List Nat) (off : Int) : GoRes BW :=
  let minCap : Int := off + p.length
  let buf1 :=
    if minCap > (m.buf.length : Int) then
      m.buf ++ List.replicate (minCap - m.buf.length).toNat 0
    else m.buf
  if off < 0 then .error .panic
  else .ok ⟨buf1.take off.toNat ++ p ++ buf1.drop (off.toNat + p.length), m.pos⟩

/-- Embeds `util.BufWriter.Write`: `WriteAt` at the current position, then
advance the position by the number of bytes written. -/
def BW.write (m : BW) (p : List Nat) : GoRes BW := do
  let m' ← m.writeAt p m.pos
  .ok { m' with pos := m.pos + p.length }

/-- Embeds `search` (bsdiff.go, lines 258-282): binary search over the suffix
rank interval `[st, en]`, comparing the query against the suffix at the middle
rank; the base case (`en - st < 2`) returns whichever endpoint has the longer
common prefix with the query, writing its position through the `pos` pointer
(modelled as the second component of the result).  Fuel drives the recursion;
slicing `oldbin[iii[mid]:]` with an out-of-range entry panics. -/
def searchF (iii : List Int) (oldbin newbin : List Nat) (st en : Int) :
    Nat → GoRes (Int × Int)
  | 0 => .error .fuel
  | fuel + 1 =>
    let oldsize : Int := oldbin.length
    let newsize : Int := newbin.length
    if en - st < 2 then do
      let ist ← idxI iii st
      let ien ← idxI iii en
      if 0 ≤ ist ∧ ist ≤ oldsize then
        if 0 ≤ ien ∧ ien ≤ oldsize then
          let x : Nat := matchlen (oldbin.drop ist.toNat) newbin
          let y : Nat := matchlen (oldbin.drop ien.toNat) newbin
          if (y : Int) < (x : Int) then .ok ((x : Int), ist)
          else .ok ((y : Int), ien)
        else .error .panic
      else .error .panic
    else do
      let x := st + (en - st) / 2
      let ix ← idxI iii x
      if 0 ≤ ix ∧ ix ≤ oldsize then
        let cmpln := min (oldsize - ix) newsize
        if bytesCompare ((oldbin.drop ix.toNat).take cmpln.toNat)
            (newbin.take cmpln.toNat) < 0 then
          searchF iii oldbin newbin x en fuel
        else
          searchF iii oldbin newbin st x fuel
      else .error .panic

/-- `search` at the call site of the diff generator: rank range
`[0, |old|]`, with enough fuel for the halving recursion. -/
def search (iii : List Int) (oldbin newbin : List Nat) : GoRes (Int × Int) :=
  searchF iii oldbin newbin 0 oldbin.length (oldbin.length + 2)

/-- The two working arrays of the suffix sorter: `iii` holds suffix positions
or negative run markers, `vvv` holds ranks. -/
structure SufState where
  iii : List Int
  vvv : List Int
deriving Repr, DecidableEq

/-- The `for i = 0; i < j; i++ { vvv[iii[k+i]] = k + j - 1 }` loop nested in
the small-group branch of `split` (bsdiff.go, lines 418-420), iterated
`j.toNat` times. -/
def splitSetV (k j : Int) : Nat → Int → SufState → GoRes SufState
  | 0, _, s => .ok s
  | c + 1, i2, s => do
    let t ← idxI s.iii (k + i2)
    let v' ← setI s.vvv t (k + j - 1)
    splitSetV k j c (i2 + 1) ⟨s.iii, v'⟩

/-- The selection loop `for i = 1; k+i < start+ln; i++` of the small-group
branch of `split` (bsdiff.go, lines 406-424).  Note that in this source the
rank-update loop and the `iii[k] = -1` singleton mark sit inside this loop
(unlike the C original it transcribes), and the nested loop leaves `i = j`,
so the next iteration resumes at `i = j + 1`.  Returns the state and the
final `j` (the outer loop step). -/
def splitSmallInner (st ln h k : Int) :
    Nat → Int → Int → Int → SufState → GoRes (SufState × Int)
  | 0, _, _, _, _ => .error .fuel
  | fuel + 1, i, j, x, s =>
    if k + i < st + ln then do
      let ik ← idxI s.iii (k + i)
      let v1 ← idxI s.vvv (ik + h)
      let x' := if v1 < x then v1 else x
      let j0 := if v1 < x then 0 else j
      let sj ← (if v1 = x' then do
          let a ← idxI s.iii (k + j0)
          let b ← idxI s.iii (k + i)
          let t1 ← setI s.iii (k + j0) b
          let t2 ← setI t1 (k + i) a
          pure ((⟨t2, s.vvv⟩ : SufState), j0 + 1)
        else pure (s, j0))
      let s2 ← splitSetV k sj.2 sj.2.toNat 0 sj.1
      let s3 ← (if sj.2 = 1 then do
          let t ← setI s2.iii k (-1)
          pure (⟨t, s2.vvv⟩ : SufState)
        else pure s2)
      splitSmallInner st ln h k fuel (sj.2 + 1) sj.2 x' s3
    else .ok (s, j)

/-- The outer `for k = start; k < start+ln; k += j` loop of the small-group
branch of `split` (bsdiff.go, lines 403-425).  `ifuel` bounds the inner
selection loop. -/
def splitSmallOuter (st ln h : Int) (ifuel : Nat) :
    Nat → Int → SufState → GoRes SufState
  | 0, _, _ => .error .fuel
  | fuel + 1, k, s =>
    if k < st + ln then do
      let ik ← idxI s.iii k
      let x ← idxI s.vvv (ik + h)
      let r ← splitSmallInner st ln h k ifuel 1 1 x s
      splitSmallOuter st ln h ifuel fuel (k + r.2) r.1
    else .ok s

/-- The counting pass of the large-group branch of `split` (bsdiff.go,
lines 430-437), iterated `ln.toNat` times from `i = start`. -/
def splitBigCount (h x : Int) :
    Nat → Int → Int → Int → SufState → GoRes (Int × Int)
  | 0, _, jj, kk, _ => .ok (jj, kk)
  | c + 1, i, jj, kk, s => do
    let t ← idxI s.iii i
    let v ← idxI s.vvv (t + h)
    if v < x then splitBigCount h x c (i + 1) (jj + 1) kk s
    else if v = x then splitBigCount h x c (i + 1) jj (kk + 1) s
    else splitBigCount h x c (i + 1) jj kk s

/-- The first partition loop `for i < jj` of the large-group branch of
`split` (bsdiff.go, lines 441-453). -/
def splitBigPart (h x jj kk : Int) :
    Nat → Int → Int → Int → SufState → GoRes (SufState × Int × Int)
  | 0, _, _, _, _ => .error .fuel
  | fuel + 1, i, j, k, s =>
    if i < jj then do
      let t ← idxI s.iii i
      let v ← idxI s.vvv (t + h)
      if v < x then splitBigPart h x jj kk fuel (i + 1) j k s
      else if v = x then do
        let a ← idxI s.iii i
        let b ← idxI s.iii (jj + j)
        let t1 ← setI s.iii i b
        let t2 ← setI t1 (jj + j) a
        splitBigPart h x jj kk fuel i (j + 1) k ⟨t2, s.vvv⟩
      else do
        let a ← idxI s.iii i
        let b ← idxI s.iii (kk + k)
        let t1 ← setI s.iii i b
        let t2 ← setI t1 (kk + k) a
        splitBigPart h x jj kk fuel i j (k + 1) ⟨t2, s.vvv⟩
    else .ok (s, j, k)

/-- The second partition loop `for jj+j < kk` of the large-group branch of
`split` (bsdiff.go, lines 454-461). -/
def splitBigPart2 (h x jj kk : Int) :
    Nat → Int → Int → SufState → GoRes SufState
  | 0, _, _, _ => .error .fuel
  | fuel + 1, j, k, s =>
    if jj + j < kk then do
      let t ← idxI s.iii (jj + j)
      let v ← idxI s.vvv (t + h)
      if v = x then splitBigPart2 h x jj kk fuel (j + 1) k s
      else do
        let a ← idxI s.iii (jj + j)
        let b ← idxI s.iii (kk + k)
        let t1 ← setI s.iii (jj + j) b
        let t2 ← setI t1 (kk + k) a
        splitBigPart2 h x jj kk fuel j (k + 1) ⟨t2, s.vvv⟩
    else .ok s

/-- The rank-update loop `for i = 0; i < kk-jj; i++` of the large-group
branch of `split` (bsdiff.go, lines 466-468). -/
def splitBigSetV (jj kk : Int) : Nat → Int → SufState → GoRes SufState
  | 0, _, s => .ok s
  | c + 1, i, s => do
    let t ← idxI s.iii (jj + i)
    let v' ← setI s.vvv t (kk - 1)
    splitBigSetV jj kk c (i + 1) ⟨s.iii, v'⟩

/-- Fuel bound used for the unbounded loops inside `split`. -/
def splitLoopFuel (s : SufState) : Nat := (s.iii.length + 16) * (s.iii.length + 16)

/-- Embeds `split` (bsdiff.go, lines 398-476): ternary-split quicksort of one
rank group.  Groups shorter than 16 use the selection-sort branch; larger
groups partition around the key of the middle element (`ln / 2` is on a
nonnegative operand, where Go and Lean integer division agree) and recurse on
the outer partitions.  The `fuel` argument bounds the recursion depth. -/
def split (s : SufState) (start ln h : Int) : Nat → GoRes SufState
  | 0 => .error .fuel
  | fuel + 1 =>
    if ln < 16 then
      splitSmallOuter start ln h (splitLoopFuel s) (splitLoopFuel s) start s
    else do
      let t ← idxI s.iii (start + ln / 2)
      let x ← idxI s.vvv (t + h)
      let jk ← splitBigCount h x ln.toNat start 0 0 s
      let jj := jk.1 + start
      let kk := jk.2 + jj
      let r1 ← splitBigPart h x jj kk (splitLoopFuel s) start 0 0 s
      let s2 ← splitBigPart2 h x jj kk (splitLoopFuel s) r1.2.1 r1.2.2 r1.1
      let s3 ← (if start < jj then split s2 start (jj - start) h fuel
        else pure s2)
      let s4 ← splitBigSetV jj kk (kk - jj).toNat 0 s3
      let s5 ← (if jj = kk - 1 then do
          let t1 ← setI s4.iii jj (-1)
          pure (⟨t1, s4.vvv⟩ : SufState)
        else pure s4)
      if kk < start + ln then split s5 kk (start + ln - kk) h fuel
      else pure s5

/-- Bucket counting pass of `qsufsort` (bsdiff.go, lines 338-340). -/
def qsBucketCount : List Nat → List Int → GoRes (List Int)
  | [], bk => .ok bk
  | b :: bs, bk => do
    let c ← idxI bk b
    let bk' ← setI bk b (c + 1)
    qsBucketCount bs bk'

/-- Cumulative-sum pass of `qsufsort` (bsdiff.go, lines 342-344):
`for i = 1; i < 256; i++ { buckets[i] += buckets[i-1] }`, phrased as a single
left-to-right walk carrying the running sum (the sequential loop leaves
`buckets[i]` equal to the prefix sum through `i`). -/
def qsBucketCum (acc : Int) : List Int → List Int
  | [] => []
  | b :: bs => (acc + b) :: qsBucketCum (acc + b) bs

/-- Shift pass of `qsufsort` (bsdiff.go, lines 346-349):
`for i = 255; i > 0; i-- { buckets[i] = buckets[i-1] }; buckets[0] = 0`.
The downward walk moves every entry one slot right (discarding the last) and
the follow-up statement zeroes slot 0. -/
def qsBucketShift (bk : List Int) : List Int := 0 :: bk.dropLast

/-- Placement pass of `qsufsort` (bsdiff.go, lines 352-355):
`buckets[buf[i]]++; iii[buckets[buf[i]]] = i`. -/
def qsPlace : List Nat → Int → List Int → List Int → GoRes (List Int × List Int)
  | [], _, bk, iii => .ok (bk, iii)
  | b :: bs, i, bk, iii => do
    let c ← idxI bk b
    let bk' ← setI bk b (c + 1)
    let iii' ← setI iii (c + 1) i
    qsPlace bs (i + 1) bk' iii'

/-- Rank-initialisation pass of `qsufsort` (bsdiff.go, lines 358-360):
`vvv[i] = buckets[buf[i]]`. -/
def qsVInit : List Nat → Int → List Int → List Int → GoRes (List Int)
  | [], _, _, vvv => .ok vvv
  | b :: bs, i, bk, vvv => do
    let c ← idxI bk b
    let vvv' ← setI vvv i c
    qsVInit bs (i + 1) bk vvv'

/-- Singleton-bucket marking pass of `qsufsort` (bsdiff.go, lines 363-367):
`for i = 1; i < 256; i++ { if buckets[i] == buckets[i-1]+1 {
iii[buckets[i]] = -1 } }`, phrased as a walk over adjacent pairs (`prev` is
`buckets[i-1]`). -/
def qsMarks : Int → List Int → List Int → GoRes (List Int)
  | _, [], iii => .ok iii
  | prev, b :: bs, iii => do
    let iii' ← (if b = prev + 1 then setI iii b (-1) else pure iii)
    qsMarks b bs iii'

/-- One left-to-right walk of `iii` inside the doubling loop of `qsufsort`
(bsdiff.go, lines 371-390): skip negative run markers (merging them), call
`split` on each unsorted group, and write the final pending run marker after
the walk. -/
def qsScan (bufzise h : Int) : Nat → Int → Int → SufState → GoRes SufState
  | 0, _, _, _ => .error .fuel
  | fuel + 1, i, ln, s =>
    if i < bufzise + 1 then do
      let ti ← idxI s.iii i
      if ti < 0 then qsScan bufzise h fuel (i - ti) (ln - ti) s
      else do
        let s1 ← (if ln ≠ 0 then do
            let t ← setI s.iii (i - ln) (-ln)
            pure (⟨t, s.vvv⟩ : SufState)
          else pure s)
        let ti1 ← idxI s1.iii i
        let v ← idxI s1.vvv ti1
        let ln2 := v + 1 - i
        let s2 ← split s1 i ln2 h (bufzise.toNat + 16)
        qsScan bufzise h fuel (i + ln2) 0 s2
    else
      if ln ≠ 0 then do
        let t ← setI s.iii (i - ln) (-ln)
        pure ⟨t, s.vvv⟩
      else .ok s

/-- The doubling loop of `qsufsort` (bsdiff.go, line 370):
`for h = 1; iii[0] != -(bufzise+1); h += h`. -/
def qsHLoop (bufzise : Int) : Nat → Int → SufState → GoRes SufState
  | 0, _, _ => .error .fuel
  | fuel + 1, h, s => do
    let t0 ← idxI s.iii 0
    if t0 ≠ -(bufzise + 1) then do
      let s1 ← qsScan bufzise h ((bufzise.toNat + 8) * 4) 0 0 s
      qsHLoop bufzise fuel (h + h) s1
    else .ok s

/-- Final rebuild of `qsufsort` (bsdiff.go, lines 393-395):
`iii[vvv[i]] = i`. -/
def qsRebuild : Nat → Int → SufState → GoRes SufState
  | 0, _, s => .ok s
  | c + 1, i, s => do
    let v ← idxI s.vvv i
    let t ← setI s.iii v i
    qsRebuild c (i + 1) ⟨t, s.vvv⟩

/-- Embeds `qsufsort` (bsdiff.go, lines 332-396). -/
def qsufsort (iii vvv : List Int) (buf : List Nat) : GoRes SufState := do
  let n : Int := buf.length
  let bk1 ← qsBucketCount buf (List.replicate 256 0)
  let bk4 := qsBucketShift (qsBucketCum 0 bk1)
  let pl ← qsPlace buf 0 bk4 iii
  let iii2 ← setI pl.2 0 n
  let vvv1 ← qsVInit buf 0 pl.1 vvv
  let vvv2 ← setI vvv1 n 0
  let iii3 ← qsMarks (pl.1.headD 0) (pl.1.drop 1) iii2
  let iii4 ← setI iii3 0 (-1)
  let s ← qsHLoop n (n.toNat + 4) 1 ⟨iii4, vvv2⟩
  qsRebuild (n.toNat + 1) 0 s

/-- `qsufsort` as called by `diffb` (bsdiff.go, lines 51-53): both working
arrays freshly allocated with `|old| + 1` zeroes. -/
def qsufsortRun (buf : List Nat) : GoRes SufState :=
  qsufsort (List.replicate (buf.length + 1) 0)
    (List.replicate (buf.length + 1) 0) buf

/-- Write `a[i] = v` for a Go `[]byte` slice: an out-of-range or negative
index panics. -/
def setB (a : List Nat) (i : Int) (v : Nat) : GoRes (List Nat) :=
  match i with
  | .ofNat n => setNat a n v
  | .negSucc _ => .error .panic

/-- The `for scsc < scan+ln` coverage loop (bsdiff.go, lines 117-122):
increment `scsc`, and count a hit when `oldbin[scsc+lastoffset]` exists below
`oldsize` and equals `newbin[scsc]` (a negative index panics, and
`newbin[scsc]` is read unguarded). -/
def diffScsc (oldbin newbin : List Nat) (lastoffset bound : Int) :
    Nat → Int → Int → GoRes (Int × Int)
  | 0, _, _ => .error .fuel
  | fuel + 1, scsc, oldscore =>
    if scsc < bound then
      if scsc + 1 + lastoffset < (oldbin.length : Int) then do
        let a ← idxN oldbin (scsc + 1 + lastoffset)
        let b ← idxN newbin (scsc + 1)
        diffScsc oldbin newbin lastoffset bound fuel (scsc + 1)
          (if a = b then oldscore + 1 else oldscore)
      else diffScsc oldbin newbin lastoffset bound fuel (scsc + 1) oldscore
    else .ok (scsc, oldscore)

/-- The inner probe loop of the diff generator (bsdiff.go, lines 113-132):
advance `scan`, query `search`, update the coverage score `oldscore` over
`scsc`, and stop on one of the two break conditions.  Returns
`(scan, ln, pos, oldscore, scsc)`. -/
def diffInner (iii : List Int) (oldbin newbin : List Nat) (lastoffset : Int) :
    Nat → Int → Int → Int → Int → Int → GoRes (Int × Int × Int × Int × Int)
  | 0, _, _, _, _, _ => .error .fuel
  | fuel + 1, scan, ln, pos, oldscore, scsc =>
    if scan < (newbin.length : Int) then do
      let lp ← search iii oldbin (newbin.drop (scan + 1).toNat)
      let so ← diffScsc oldbin newbin lastoffset (scan + 1 + lp.1)
        (newbin.length + oldbin.length + 4) scsc oldscore
      if lp.1 = so.2 ∧ lp.1 ≠ 0 then .ok (scan + 1, lp.1, lp.2, so.2, so.1)
      else if lp.1 > so.2 + 8 then .ok (scan + 1, lp.1, lp.2, so.2, so.1)
      else
        if scan + 1 + lastoffset < (oldbin.length : Int) then do
          let a ← idxN oldbin (scan + 1 + lastoffset)
          let b ← idxN newbin (scan + 1)
          diffInner iii oldbin newbin lastoffset fuel (scan + 1) lp.1 lp.2
            (if a = b then so.2 - 1 else so.2) so.1
        else
          diffInner iii oldbin newbin lastoffset fuel (scan + 1) lp.1 lp.2
            so.2 so.1
    else .ok (scan, ln, pos, oldscore, scsc)

/-- The forward-extension loop of the diff generator (bsdiff.go,
lines 136-149): walk `i` while `lastscan+i < scan` and `lastpos+i < oldsize`,
tracking the maximum of `2s - i`.  Returns `lenf`. -/
def diffLenf (oldbin newbin : List Nat) (lastscan lastpos scan : Int) :
    Nat → Int → Int → Int → Int → GoRes Int
  | 0, _, _, _, _ => .error .fuel
  | fuel + 1, i, s, sf, lenf =>
    if lastscan + i < scan ∧ lastpos + i < (oldbin.length : Int) then do
      let a ← idxN oldbin (lastpos + i)
      let b ← idxN newbin (lastscan + i)
      let s1 := if a = b then s + 1 else s
      if s1 * 2 - (i + 1) > sf * 2 - lenf then
        diffLenf oldbin newbin lastscan lastpos scan fuel (i + 1) s1 s1 (i + 1)
      else diffLenf oldbin newbin lastscan lastpos scan fuel (i + 1) s1 sf lenf
    else .ok lenf

/-- The backward-extension loop of the diff generator (bsdiff.go,
lines 151-164): walk `i` from 1 while `scan >= lastscan+i` and `pos >= i`,
tracking the maximum of `2s - i`.  Returns `lenb`. -/
def diffLenb (oldbin newbin : List Nat) (lastscan scan pos : Int) :
    Nat → Int → Int → Int → Int → GoRes Int
  | 0, _, _, _, _ => .error .fuel
  | fuel + 1, i, s, sb, lenb =>
    if lastscan + i ≤ scan ∧ i ≤ pos then do
      let a ← idxN oldbin (pos - i)
      let b ← idxN newbin (scan - i)
      let s1 := if a = b then s + 1 else s
      if s1 * 2 - i > sb * 2 - lenb then
        diffLenb oldbin newbin lastscan scan pos fuel (i + 1) s1 s1 i
      else diffLenb oldbin newbin lastscan scan pos fuel (i + 1) s1 sb lenb
    else .ok lenb

/-- The overlap-resolution loop of the diff generator (bsdiff.go,
lines 166-183): over the `overlap` bytes, `s` rises on forward-side matches
and falls on backward-side matches; track the maximum.  Returns `lens`. -/
def diffOverlap (oldbin newbin : List Nat)
    (lastscan lastpos scan pos lenf lenb overlap : Int) :
    Nat → Int → Int → Int → Int → GoRes Int
  | 0, _, _, _, _ => .error .fuel
  | fuel + 1, i, s, ss, lens =>
    if i < overlap then do
      let a ← idxN newbin (lastscan + lenf - overlap + i)
      let b ← idxN oldbin (lastpos + lenf - overlap + i)
      let s1 := if a = b then s + 1 else s
      let c ← idxN newbin (scan - lenb + i)
      let d ← idxN oldbin (pos - lenb + i)
      let s2 := if c = d then s1 - 1 else s1
      if s2 > ss then
        diffOverlap oldbin newbin lastscan lastpos scan pos lenf lenb overlap
          fuel (i + 1) s2 s2 (i + 1)
      else
        diffOverlap oldbin newbin lastscan lastpos scan pos lenf lenb overlap
          fuel (i + 1) s2 ss lens
    else .ok lens

/-- The diff-byte emission loop (bsdiff.go, lines 190-192):
`db[dblen+i] = newbin[lastscan+i] - oldbin[lastpos+i]` (Go byte arithmetic,
i.e. modulo 256), iterated `lenf.toNat` times. -/
def diffDbWrite (oldbin newbin : List Nat) (lastscan lastpos dblen : Int) :
    Nat → Int → List Nat → GoRes (List Nat)
  | 0, _, db => .ok db
  | c + 1, i, db => do
    let b ← idxN newbin (lastscan + i)
    let a ← idxN oldbin (lastpos + i)
    let db' ← setB db (dblen + i) ((256 + b - a) % 256)
    diffDbWrite oldbin newbin lastscan lastpos dblen c (i + 1) db'

/-- The extra-byte emission loop (bsdiff.go, lines 193-195):
`eb[eblen+i] = newbin[lastscan+lenf+i]`. -/
def diffEbWrite (newbin : List Nat) (base eblen : Int) :
    Nat → Int → List Nat → GoRes (List Nat)
  | 0, _, eb => .ok eb
  | c + 1, i, eb => do
    let b ← idxN newbin (base + i)
    let eb' ← setB eb (eblen + i) b
    diffEbWrite newbin base eblen c (i + 1) eb'

/-- The state threaded through the main loop of `diffb`. -/
structure DiffLoopState where
  scan : Int
  ln : Int
  lastscan : Int
  lastpos : Int
  lastoffset : Int
  pos : Int
  dblen : Int
  eblen : Int
  db : List Nat
  eb : List Nat
  pf : BW
deriving Repr, DecidableEq

/-- The main loop of `diffb` (bsdiff.go, lines 108-219): probe with
`diffInner`; when it stops with `ln != oldscore` or at the end of `new`,
extend forward and backward, resolve overlap, append to the diff and extra
buffers, and write one control triple through the (identity-codec) compressor
into `pf`. -/
def diffLoop (iii : List Int) (oldbin newbin : List Nat) :
    Nat → DiffLoopState → GoRes DiffLoopState
  | 0, _ => .error .fuel
  | fuel + 1, st =>
    if st.scan < (newbin.length : Int) then do
      let r ← diffInner iii oldbin newbin st.lastoffset (newbin.length + 2)
        (st.scan + st.ln) st.ln st.pos 0 (st.scan + st.ln)
      let scan1 := r.1
      let ln1 := r.2.1
      let pos1 := r.2.2.1
      let oldscore1 := r.2.2.2.1
      if ln1 ≠ oldscore1 ∨ scan1 = (newbin.length : Int) then do
        let lenf0 ← diffLenf oldbin newbin st.lastscan st.lastpos scan1
          (newbin.length + oldbin.length + 4) 0 0 0 0
        let lenb0 ← (if scan1 < (newbin.length : Int) then
            diffLenb oldbin newbin st.lastscan scan1 pos1
              (oldbin.length + newbin.length + 4) 1 0 0 0
          else pure 0)
        let fb ← (if st.lastscan + lenf0 > scan1 - lenb0 then do
            let overlap := (st.lastscan + lenf0) - (scan1 - lenb0)
            let lens ← diffOverlap oldbin newbin st.lastscan st.lastpos scan1
              pos1 lenf0 lenb0 overlap (newbin.length + 4) 0 0 0 0
            pure (lenf0 + (lens - overlap), lenb0 - lens)
          else pure (lenf0, lenb0))
        let lenf1 := fb.1
        let lenb1 := fb.2
        let db' ← diffDbWrite oldbin newbin st.lastscan st.lastpos st.dblen
          lenf1.toNat 0 st.db
        let ebcount := (scan1 - lenb1) - (st.lastscan + lenf1)
        let eb' ← diffEbWrite newbin (st.lastscan + lenf1) st.eblen
          ebcount.toNat 0 st.eb
        let pf1 ← st.pf.write (offtout lenf1)
        let pf2 ← pf1.write (offtout ebcount)
        let pf3 ← pf2.write (offtout ((pos1 - lenb1) - (st.lastpos + lenf1)))
        diffLoop iii oldbin newbin fuel
          { scan := scan1, ln := ln1, lastscan := scan1 - lenb1,
            lastpos := pos1 - lenb1, lastoffset := pos1 - scan1, pos := pos1,
            dblen := st.dblen + lenf1, eblen := st.eblen + ebcount,
            db := db', eb := eb', pf := pf3 }
      else
        diffLoop iii oldbin newbin fuel
          { st with scan := scan1, ln := ln1, pos := pos1 }
    else .ok st

/-- Embeds `diffb` (bsdiff.go, lines 50-256) under the identity BZ2 codec:
suffix-sort `old`, write the 32-byte header (magic, zero, zero, `|new|`),
run the main emission loop (control triples go straight through the
identity-codec compressor into `pf`), patch bytes 8..16 of the header with
`pf.Len() - 32`, write `db[:dblen]` through a fresh identity-codec
compressor, then seek to the start and rewrite the header.  Note that, as in
the source, nothing further is written: the extra buffer `eb` is dropped and
header bytes 16..24 keep the value 0 they were given initially. -/
def diffb (oldbin newbin : List Nat) : GoRes (List Nat) := do
  let s ← qsufsortRun oldbin
  let pf1 ← BW.write ⟨[], 0⟩
    (magic ++ offtout 0 ++ offtout 0 ++ offtout (newbin.length))
  let st ← diffLoop s.iii oldbin newbin (newbin.length + 2)
    { scan := 0, ln := 0, lastscan := 0, lastpos := 0, lastoffset := 0,
      pos := 0, dblen := 0, eblen := 0,
      db := List.replicate (newbin.length + 1) 0,
      eb := List.replicate (newbin.length + 1) 0, pf := pf1 }
  let ln2 : Int := st.pf.buf.length
  let pf2 ← st.pf.write (st.db.take st.dblen.toNat)
  let pf3 ← BW.write ⟨pf2.buf, 0⟩
    (magic ++ offtout (ln2 - 32) ++ offtout 0 ++ offtout (newbin.length))
  .ok pf3.buf

/-- The 64 KiB chunk size of the applier's scratch buffers. -/
def readBufSize : Int := 64 * 1024

/-- Overwrite the first `bs.length` bytes of a scratch buffer with `bs`,
keeping the rest (the buffers persist across loop iterations, so bytes a
short read leaves behind are stale, not zero). -/
def bufOverwrite (f : Nat → Nat) (bs : List Nat) : Nat → Nat :=
  fun j => if j < bs.length then bs.getD j 0 else f j

/-- Materialise the first `n` bytes of a scratch buffer (a Go `buf[:n]`
slice as passed to a write). -/
def bufTake (f : Nat → Nat) (n : Nat) : List Nat := (List.range n).map f

/-- `io.ReadFull` on an identity-codec BZ2 reader over the remaining stream
bytes: a full read returns the requested prefix, a read of zero bytes is
`io.EOF` (which the applier tolerates, keeping the destination's previous
bytes — hence the `Option`), and a partial read is `io.ErrUnexpectedEOF`,
which the applier turns into a corrupt-patch error. -/
def readFull (stream : List Nat) (n : Nat) : GoRes (Option (List Nat) × List Nat) :=
  if n ≤ stream.length then .ok (some (stream.take n), stream.drop n)
  else if stream.length = 0 then .ok (none, stream)
  else .error .err

/-- `bytes.Reader.ReadAt` on `old` at offset `off` for `m` bytes, as used by
the applier with the error ignored: a negative offset reads nothing (the
reader returns an error, dropped), an offset at or past the end reads
nothing (`io.EOF`, dropped), otherwise the available prefix is returned
(short reads tolerated). -/
def readAtOld (oldfile : List Nat) (off : Int) (m : Nat) : List Nat :=
  if off < 0 then [] else (oldfile.drop off.toNat).take m

/-- State threaded through the main loop of `patchb`: the three identity-codec
decompressor streams, the 8-byte control scratch buffer, the two 64 KiB
scratch buffers (as total functions, zero-initialised), the sink, and the two
cursors. -/
structure PState where
  cpf : List Nat
  dpf : List Nat
  epf : List Nat
  buf8 : List Nat
  readBuf : Nat → Nat
  readBufPatch : Nat → Nat
  res : BW
  newpos : Int
  oldpos : Int

/-- One control-value read of the applier (part_000, lines 147-157):
`io.ReadFull(cpfbz2, buf)` tolerating `io.EOF` (stale `buf` reused), then
`offtin(buf)`.  Returns the remaining control stream, the scratch buffer and
the decoded value. -/
def readCtrlOne (cpf buf8 : List Nat) : GoRes (List Nat × List Nat × Int) := do
  let r ← readFull cpf 8
  let buf8' := match r.1 with
    | some bs => bs
    | none => buf8
  .ok (r.2, buf8', offtin buf8')

/-- Fuel sufficient for the 64 KiB chunk loops over `x` bytes. -/
def chunkFuel (x : Int) : Nat := x.toNat / (64 * 1024) + 2

/-- The diff-segment phase of the applier (part_000, lines 163-191), one
64 KiB chunk per iteration: read `readSize` bytes from the diff stream into
`readBufPatch` (EOF tolerated, buffer stale), read up to `readSize` bytes of
`old` at `oldpos` into `readBuf` (errors ignored, short reads tolerated), add
the `n` bytes actually read into `readBufPatch` byte-wise, write
`readBufPatch[:readSize]` to the sink at `newpos`, and advance both cursors
by `readSize`. -/
def diffPhase (oldfile : List Nat) (x : Int) :
    Nat → Int → PState → GoRes PState
  | 0, _, _ => .error .fuel
  | fuel + 1, i, st =>
    if i < x then do
      let readSize : Int := min (x - i) readBufSize
      let r ← readFull st.dpf readSize.toNat
      let rbp1 := match r.1 with
        | some bs => bufOverwrite st.readBufPatch bs
        | none => st.readBufPatch
      let rb := readAtOld oldfile st.oldpos readSize.toNat
      let rb1 := bufOverwrite st.readBuf rb
      let rbp2 : Nat → Nat := fun j =>
        if j < rb.length then (rbp1 j + rb1 j) % 256 else rbp1 j
      let res1 ← st.res.writeAt (bufTake rbp2 readSize.toNat) st.newpos
      diffPhase oldfile x fuel (i + readBufSize)
        { st with
          dpf := (r.2), readBuf := rb1, readBufPatch := rbp2,
          res := res1, newpos := st.newpos + readSize,
          oldpos := st.oldpos + readSize }
    else .ok st

/-- The extra-segment phase of the applier (part_000, lines 201-218), one
64 KiB chunk per iteration: read `readSize` bytes from the extra stream into
`readBuf` (EOF tolerated, buffer stale), write `readBuf[:readSize]` to the
sink at `newpos`, and advance both cursors by `readSize` (`oldpos` advances
here too, mirrored by the generator's accounting). -/
def extraPhase (y : Int) : Nat → Int → PState → GoRes PState
  | 0, _, _ => .error .fuel
  | fuel + 1, i, st =>
    if i < y then do
      let readSize : Int := min (y - i) readBufSize
      let r ← readFull st.epf readSize.toNat
      let rb1 := match r.1 with
        | some bs => bufOverwrite st.readBuf bs
        | none => st.readBuf
      let res1 ← st.res.writeAt (bufTake rb1 readSize.toNat) st.newpos
      extraPhase y fuel (i + readBufSize)
        { st with
          epf := (r.2), readBuf := rb1, res := res1,
          newpos := st.newpos + readSize, oldpos := st.oldpos + readSize }
    else .ok st

/-- Processing of one decoded control triple `(x, y, z)` by the applier
(part_000, lines 158-220): sanity-check `newpos + x`, run the diff phase,
sanity-check `newpos + y`, run the extra phase, then adjust
`oldpos += z - y`. -/
def processTriple (oldfile : List Nat) (newsize x y z : Int) (st : PState) :
    GoRes PState :=
  if st.newpos + x > newsize then .error .err
  else do
    let st2 ← diffPhase oldfile x (chunkFuel x) 0 st
    if st2.newpos + y > newsize then .error .err
    else do
      let st3 ← extraPhase y (chunkFuel y) 0 st2
      .ok { st3 with oldpos := st3.oldpos + (z - y) }

/-- The main loop of the applier (part_000, lines 145-221): while
`newpos < newsize`, decode three control values and process the triple. -/
def patchLoop (oldfile : List Nat) (newsize : Int) :
    Nat → PState → GoRes PState
  | 0, _ => .error .fuel
  | fuel + 1, st =>
    if st.newpos < newsize then do
      let c1 ← readCtrlOne st.cpf st.buf8
      let c2 ← readCtrlOne c1.1 c1.2.1
      let c3 ← readCtrlOne c2.1 c2.2.1
      let st1 ← processTriple oldfile newsize c1.2.2 c2.2.2 c3.2.2
        { st with cpf := c3.1, buf8 := c3.2.1 }
      patchLoop oldfile newsize fuel st1
    else .ok st

/-- Embeds `patchb` (part_000, lines 78-235) with the in-memory
`util.BufWriter` sink of `bspatch.Bytes` and the identity BZ2 codec: check
the 32-byte header (length, magic, non-negative lengths), open the three
decompressor sections at the offsets the header declares, pre-extend the sink
by writing a zero byte at `newsize - 1`, run the control loop, and return the
sink's bytes.  Closing the identity-codec decoders reports no error. -/
def patchb (oldfile patch : List Nat) : GoRes (List Nat) :=
  if patch.length < 32 then .error .err
  else
    let header := patch.take 32
    if header.take 8 ≠ magic then .error .err
    else
      let bzctrllen := offtin (header.drop 8)
      let bzdatalen := offtin (header.drop 16)
      let newsize := offtin (header.drop 24)
      if bzctrllen < 0 ∨ bzdatalen < 0 ∨ newsize < 0 then .error .err
      else do
        let res0 ← BW.writeAt ⟨[], 0⟩ [0] (newsize - 1)
        let st ← patchLoop oldfile newsize
          (patch.length + newsize.toNat + 8)
          { cpf := (patch.drop 32).take bzctrllen.toNat,
            dpf := (patch.drop (32 + bzctrllen).toNat).take bzdatalen.toNat,
            epf := patch.drop (32 + bzctrllen + bzdatalen).toNat,
            buf8 := List.replicate 8 0,
            readBuf := fun _ => 0, readBufPatch := fun _ => 0,
            res := res0, newpos := 0, oldpos := 0 }
        .ok st.res.buf

/-- The byte the applier effectively adds from `old` at absolute position
`k`: the real byte when `0 ≤ k < |old|`, zero otherwise. -/
def oldByte (oldfile : List Nat) (k : Int) : Nat :=
  if 0 ≤ k ∧ k < (oldfile.length : Int) then oldfile.getD k.toNat 0 else 0

/-- Pure counterpart of `BW.writeAt` at a nonnegative offset. -/
def overwriteAt (buf : List Nat) (off : Nat) (p : List Nat) : List Nat :=
  let buf1 :=
    if off + p.length > buf.length then
      buf ++ List.replicate (off + p.length - buf.length) 0
    else buf
  buf1.take off ++ p ++ buf1.drop (off + p.length)

-- # Theorems

theorem getNat_eq_ok {α : Type} (a : List α) (n : Nat) (h : n < a.length) :
    getNat a n = .ok (a.get ⟨n, h⟩) := by
  induction a generalizing n with
  | nil => simp at h
  | cons x xs ih =>
    cases n with
    | zero => rfl
    | succ m => exact ih m (by simpa using h)

theorem idxI_eq_ok (a : List Int) (i : Int) (h0 : 0 ≤ i)
    (h : i.toNat < a.length) : idxI a i = .ok (a.get ⟨i.toNat, h⟩) := by
  match i, h0 with
  | .ofNat n, _ => exact getNat_eq_ok a n h

theorem land127_of_lt : ∀ a : Nat, a < 128 → a &&& 127 = a := by decide

theorem land128_of_lt : ∀ a : Nat, a < 128 → a &&& 128 = 0 := by decide

theorem or128_land127 : ∀ a : Nat, a < 128 → (a ||| 128) &&& 127 = a := by
  decide

theorem or128_land128 : ∀ a : Nat, a < 128 → (a ||| 128) &&& 128 = 128 := by
  decide

/-- C4: for every integer whose magnitude fits in 63 bits, decoding the
8-byte signed-magnitude little-endian encoding yields the integer back, and
both the canonical `+0` encoding and the alternative `-0` form (sign bit set,
magnitude 0) decode to `0`. -/
theorem offtin_offtout (n : Int) (h1 : -(2 ^ 63) < n) (h2 : n < 2 ^ 63) :
    offtin (offtout n) = n ∧ offtin (offtout 0) = 0 ∧
      offtin [0, 0, 0, 0, 0, 0, 0, 128] = 0 := by
  refine ⟨?_, by decide, by decide⟩
  have hy : n.natAbs < 2 ^ 63 := by omega
  have hstep : ∀ z : Nat, (z - z % 256) / 256 = z / 256 := fun z => by omega
  have hlt : n.natAbs / 72057594037927936 % 256 < 128 := by omega
  rcases lt_or_le n 0 with hneg | hpos
  · simp only [offtout, if_pos hneg, offtin, List.getD_cons_zero,
      List.getD_cons_succ, hstep, Nat.div_div_eq_div_mul]
    norm_num only
    rw [or128_land127 _ hlt, or128_land128 _ hlt]
    simp only [ne_eq, OfNat.ofNat_ne_zero, not_false_eq_true, if_pos]
    omega
  · simp only [offtout, if_neg (by omega : ¬n < 0), offtin, List.getD_cons_zero,
      List.getD_cons_succ, hstep, Nat.div_div_eq_div_mul]
    norm_num only
    rw [land127_of_lt _ hlt, land128_of_lt _ hlt]
    simp only [ne_eq, not_true_eq_false, if_neg, not_false_eq_true]
    omega

/-- Witness for C4 at `n = -300`. -/
theorem offtin_offtout_witness :
    offtin (offtout (-300)) = -300 ∧ offtin (offtout 0) = 0 ∧
      offtin [0, 0, 0, 0, 0, 0, 0, 128] = 0 :=
  offtin_offtout (-300) (by norm_num) (by norm_num)

theorem matchlen_pos {a b : List Nat} (h : matchlen a b ≠ 0) :
    ∃ x as bs, a = x :: as ∧ b = x :: bs := by
  match a, b with
  | [], [] => simp [matchlen] at h
  | [], _ :: _ => simp [matchlen] at h
  | _ :: _, [] => simp [matchlen] at h
  | x :: as, y :: bs =>
    by_cases hxy : x = y
    · exact ⟨y, as, bs, by rw [hxy], rfl⟩
    · simp [matchlen, hxy] at h

@[simp] theorem goRes_bind_ok {α β : Type} (a : α) (f : α → GoRes β) :
    (Except.ok a >>= f : GoRes β) = f a := rfl

@[simp] theorem goRes_bind_error {α β : Type} (e : Outcome)
    (f : α → GoRes β) : (Except.error e >>= f : GoRes β) = .error e := rfl

/-- Each return value of `searchF` is an entry of `iii` paired with its exact
common-prefix length against the query. -/
theorem searchF_spec (iii : List Int) (oldbin q : List Nat)
    (hrange : ∀ v ∈ iii, 0 ≤ v ∧ v ≤ (oldbin.length : Int)) :
    ∀ fuel : Nat, ∀ st en : Int, 0 ≤ st → st ≤ en →
      en < (iii.length : Int) → (en - st).toNat < fuel →
      ∃ ln pos : Int, searchF iii oldbin q st en fuel = .ok (ln, pos) ∧
        0 ≤ pos ∧ pos ≤ (oldbin.length : Int) ∧
        ln = (matchlen (oldbin.drop pos.toNat) q : Int) := by
  intro fuel
  induction fuel with
  | zero => intro st en h1 h2 h3 h4; omega
  | succ f ih =>
    intro st en h1 h2 h3 hf
    have hst : 0 ≤ st ∧ st.toNat < iii.length := by omega
    have hen : 0 ≤ en ∧ en.toNat < iii.length := by omega
    have hist := hrange _ (List.get_mem iii st.toNat hst.2)
    have hien := hrange _ (List.get_mem iii en.toNat hen.2)
    by_cases hcase : en - st < 2
    · simp only [searchF, if_pos hcase, idxI_eq_ok iii st hst.1 hst.2,
        idxI_eq_ok iii en hen.1 hen.2, goRes_bind_ok, if_pos hist,
        if_pos hien]
      by_cases hxy :
          ((matchlen (oldbin.drop (iii.get ⟨en.toNat, hen.2⟩).toNat) q : Nat) :
            Int) <
          ((matchlen (oldbin.drop (iii.get ⟨st.toNat, hst.2⟩).toNat) q : Nat) :
            Int)
      · rw [if_pos hxy]
        exact ⟨_, _, rfl, hist.1, hist.2, rfl⟩
      · rw [if_neg hxy]
        exact ⟨_, _, rfl, hien.1, hien.2, rfl⟩
    · have hx : 0 ≤ st + (en - st) / 2 ∧ (st + (en - st) / 2).toNat <
          iii.length := by omega
      have hmid := hrange _ (List.get_mem iii (st + (en - st) / 2).toNat hx.2)
      simp only [searchF, if_neg hcase,
        idxI_eq_ok iii (st + (en - st) / 2) hx.1 hx.2, goRes_bind_ok,
        if_pos hmid]
      by_cases hcmp : bytesCompare
          ((oldbin.drop (iii.get ⟨(st + (en - st) / 2).toNat, hx.2⟩).toNat).take
            (min ((oldbin.length : Int) - iii.get
              ⟨(st + (en - st) / 2).toNat, hx.2⟩) (q.length : Int)).toNat)
          (q.take (min ((oldbin.length : Int) - iii.get
              ⟨(st + (en - st) / 2).toNat, hx.2⟩) (q.length : Int)).toNat) < 0
      · rw [if_pos hcmp]
        exact ih (st + (en - st) / 2) en (by omega) (by omega) h3 (by omega)
      · rw [if_neg hcmp]
        exact ih st (st + (en - st) / 2) h1 (by omega) (by omega) (by omega)

/-- C6: called on a suffix array for `old` (entries in range `0..|old|`),
`search` returns a position `pos` and a length `ln` with `ln` exactly the
longest-common-prefix length of the query and the suffix `old[pos..]`; in
particular `ln = 0` whenever no byte of `old` equals the first byte of the
query. -/
theorem search_exact_lcp (iii : List Int) (oldbin q : List Nat)
    (hlen : iii.length = oldbin.length + 1)
    (hrange : ∀ v ∈ iii, 0 ≤ v ∧ v ≤ (oldbin.length : Int)) :
    ∃ ln pos : Int, search iii oldbin q = .ok (ln, pos) ∧
      0 ≤ pos ∧ pos ≤ (oldbin.length : Int) ∧
      ln = (matchlen (oldbin.drop pos.toNat) q : Int) ∧
      ((∀ a ∈ oldbin, a ∉ q.take 1) → ln = 0) := by
  obtain ⟨ln, pos, heq, hp0, hp1, hlcp⟩ :=
    searchF_spec iii oldbin q hrange (oldbin.length + 2) 0 oldbin.length
      le_rfl (by exact_mod_cast Nat.zero_le _) (by rw [hlen]; push_cast; omega)
      (by omega)
  refine ⟨ln, pos, heq, hp0, hp1, hlcp, fun hnone => ?_⟩
  by_contra hne
  have hml : matchlen (oldbin.drop pos.toNat) q ≠ 0 := by
    intro h0; rw [h0] at hlcp; exact hne (by simpa using hlcp)
  obtain ⟨x, as, bs, hdrop, hq⟩ := matchlen_pos hml
  have hxold : x ∈ oldbin := List.drop_subset pos.toNat oldbin (by
    rw [hdrop]; exact List.mem_cons_self x as)
  exact hnone x hxold (by rw [hq]; simp)

/-- Witness for C6: `old = "a"`, sorted suffix array `[1, 0]`,
query `"ab"`. -/
theorem search_exact_lcp_witness :
    ∃ ln pos : Int, search [1, 0] [97] [97, 98] = .ok (ln, pos) ∧
      0 ≤ pos ∧ pos ≤ (([97] : List Nat).length : Int) ∧
      ln = (matchlen (([97] : List Nat).drop pos.toNat) [97, 98] : Int) ∧
      ((∀ a ∈ ([97] : List Nat), a ∉ ([97, 98] : List Nat).take 1) → ln = 0) :=
  search_exact_lcp [1, 0] [97] [97, 98] (by decide) (by decide)

set_option maxRecDepth 100000 in
set_option maxHeartbeats 1000000 in
/-- C3 (failing evaluation): the suffix sorter violates its contract.  On the
two-byte input `[1, 1]` the marking statements that the transcribed C code
runs after the selection loop sit *inside* that loop in this source
(bsdiff.go, lines 418-423), so the singleton group produced at the second
doubling round is never marked `-1`; the third round then calls `split` on
that already-sorted singleton with `h = 4` and reads `vvv[iii[2] + 4]`, an
index out of range for the 3-entry rank array: the Go code panics instead of
returning the sorted permutation `[2, 1, 0]`. -/
theorem qsufsort_panics_on_repeated_byte :
    qsufsortRun [1, 1] = .error .panic := by decide

set_option maxRecDepth 1000000 in
set_option maxHeartbeats 4000000 in
/-- C1 (failing evaluation): the diff/apply round trip fails.  For
`old = []`, `new = [1]` the generator emits the control triple `(0, 1, 0)`
and puts the byte `1` in the extra buffer, but `diffb` never writes the
extra block (and leaves header bytes 16..24 zero), so the applier's extra
phase hits end-of-stream (tolerated as `io.EOF`) and writes the stale zero
byte of its scratch buffer: `apply([], diff([], [1])) = [0] ≠ [1]`. -/
theorem roundtrip_fails_empty_old :
    (do let p ← diffb [] [1]; patchb [] p : GoRes (List Nat)) = .ok [0] ∧
      ([0] : List Nat) ≠ [1] :=
  ⟨by decide, by decide⟩

set_option maxRecDepth 1000000 in
set_option maxHeartbeats 4000000 in
/-- C2 (failing evaluation): for `old = new = [1]` the patch produced by
`diffb` is 57 bytes: a 32-byte header, a 24-byte control block and a 1-byte
diff block.  Bytes 0..8 are the magic, bytes 8..16 decode to 24 (the
compressed control length) and bytes 24..32 to `|new| = 1` as claimed, but
bytes 16..24 decode to 0 while the BZ2-compressed diff block actually
written after the control block has length 1: `diffb` never patches header
bytes 16..24 (and never appends the extra block). -/
theorem diffb_header_diff_length_zero :
    ∃ p : List Nat, diffb [1] [1] = .ok p ∧ p.take 8 = magic ∧
      offtin (p.drop 8) = 24 ∧ offtin (p.drop 24) = 1 ∧
      offtin (p.drop 16) = 0 ∧ (p.drop (32 + 24)).length = 1 := by
  refine ⟨[66, 83, 68, 73, 70, 70, 52, 48, 24, 0, 0, 0, 0, 0, 0, 0,
    0, 0, 0, 0, 0, 0, 0, 0, 1, 0, 0, 0, 0, 0, 0, 0,
    1, 0, 0, 0, 0, 0, 0, 0, 0, 0, 0, 0, 0, 0, 0, 0,
    1, 0, 0, 0, 0, 0, 0, 128, 0], by decide, by decide, by decide,
    by decide, by decide, by decide⟩

set_option maxRecDepth 1000000 in
set_option maxHeartbeats 1000000 in
/-- C8 (failing evaluation): on a structurally valid patch whose header
declares `newsize = 0` (magic followed by three zero fields), the
pre-extension step `res.WriteAt([]byte{0}, newsize-1)` calls the in-memory
sink with offset `-1`; `copy(m.buf[-1:], p)` is a slice-bounds violation, so
the applier panics instead of completing with zero bytes written. -/
theorem patchb_newsize_zero_panics :
    patchb [] (magic ++ offtout 0 ++ offtout 0 ++ offtout 0) =
      .error .panic := by decide

theorem BW_writeAt_nonneg (m : BW) (p : List Nat) (off : Int) (h : 0 ≤ off) :
    m.writeAt p off = .ok ⟨overwriteAt m.buf off.toNat p, m.pos⟩ := by
  have h1 : ¬ off < 0 := by omega
  simp only [BW.writeAt, overwriteAt, if_neg h1]
  by_cases h2 : (off + (p.length : Int) > (m.buf.length : Int))
  · rw [if_pos h2, if_pos (by omega)]
    have h3 : (off + (p.length : Int) - (m.buf.length : Int)).toNat =
        off.toNat + p.length - m.buf.length := by omega
    rw [h3]
  · rw [if_neg h2, if_neg (by omega)]

theorem overwriteAt_length (buf : List Nat) (off : Nat) (p : List Nat) :
    (overwriteAt buf off p).length = max (off + p.length) buf.length := by
  simp only [overwriteAt]
  by_cases h : off + p.length > buf.length
  · rw [if_pos h]
    simp [List.length_take, List.length_drop]
    omega
  · rw [if_neg h]
    simp [List.length_take, List.length_drop]
    omega

theorem getD_replicate_zero (n m : Nat) :
    (List.replicate n (0 : Nat)).getD m 0 = 0 := by
  by_cases h : m < n
  · rw [List.getD_eq_getElem _ _ (by simpa using h)]
    simp
  · rw [List.getD_eq_default _ _ (by simpa using h)]

theorem overwriteAt_getD (buf : List Nat) (off : Nat) (p : List Nat)
    (j : Nat) :
    (overwriteAt buf off p).getD j 0 =
      if off ≤ j ∧ j < off + p.length then p.getD (j - off) 0
      else buf.getD j 0 := by
  have hb1 : ∀ (b1 : List Nat), off + p.length ≤ b1.length →
      (∀ k, b1.getD k 0 = buf.getD k 0) →
      ((b1.take off ++ p) ++ b1.drop (off + p.length)).getD j 0 =
        (if off ≤ j ∧ j < off + p.length then p.getD (j - off) 0
         else buf.getD j 0) := by
    intro b1 hlen hsame
    have htk : (b1.take off).length = off := by simp; omega
    by_cases hcase : off ≤ j ∧ j < off + p.length
    · rw [if_pos hcase]
      rw [List.getD_append _ _ _ _ (by simp [htk]; omega)]
      rw [List.getD_append_right _ _ _ _ (by rw [htk]; exact hcase.1)]
      rw [htk]
    · rw [if_neg hcase]
      by_cases hj : j < off
      · rw [List.getD_append _ _ _ _ (by simp [htk]; omega)]
        rw [List.getD_append _ _ _ _ (by rw [htk]; exact hj)]
        rw [List.getD_eq_getElem?_getD, List.getElem?_take_of_lt hj,
          ← List.getD_eq_getElem?_getD]
        exact hsame j
      · rw [List.getD_append_right _ _ _ _ (by simp [htk]; omega)]
        have hlen2 : (b1.take off ++ p).length = off + p.length := by
          simp [htk]
        rw [hlen2]
        rw [List.getD_eq_getElem?_getD, List.getElem?_drop,
          ← List.getD_eq_getElem?_getD]
        rw [hsame]
        congr 1
        omega
  simp only [overwriteAt]
  by_cases h : off + p.length > buf.length
  · rw [if_pos h]
    refine hb1 _ (by simp; omega) ?_
    intro k
    by_cases hk : k < buf.length
    · rw [List.getD_append _ _ _ _ hk]
    · rw [List.getD_append_right _ _ _ _ (by omega)]
      rw [List.getD_eq_default buf _ (by omega), getD_replicate_zero]
  · rw [if_neg h]
    exact hb1 _ (by omega) (fun _ => rfl)

theorem bufTake_length (f : Nat → Nat) (n : Nat) : (bufTake f n).length = n := by
  simp [bufTake]

theorem bufTake_getD (f : Nat → Nat) (n j : Nat) :
    (bufTake f n).getD j 0 = if j < n then f j else 0 := by
  by_cases h : j < n
  · rw [if_pos h, List.getD_eq_getElem _ _ (by simp [bufTake]; omega)]
    simp [bufTake]
  · rw [if_neg h, List.getD_eq_default _ _ (by simp [bufTake]; omega)]

/-- Success and cursor accounting of the applier's extra phase: with enough
stream bytes and a nonnegative `newpos`, every chunk succeeds and both
cursors advance by the remaining byte count. -/
theorem extraPhase_spec (y : Int) :
    ∀ fuel : Nat, ∀ i : Int, ∀ st : PState,
      (y - i).toNat ≤ 65536 * fuel →
      (y - i).toNat ≤ st.epf.length →
      0 ≤ st.newpos →
      ∃ st', extraPhase y (fuel + 1) i st = .ok st' ∧
        st'.newpos = st.newpos + max (y - i) 0 ∧
        st'.oldpos = st.oldpos + max (y - i) 0 ∧
        st'.cpf = st.cpf ∧ st'.dpf = st.dpf ∧ st'.buf8 = st.buf8 ∧
        st'.epf = st.epf.drop (y - i).toNat ∧
        st'.res.pos = st.res.pos := by
  intro fuel
  induction fuel with
  | zero =>
    intro i st hf hs hnp
    refine ⟨st, ?_, by omega, by omega, rfl, rfl, rfl, ?_, rfl⟩
    · simp only [extraPhase]
      rw [if_neg (by omega)]
    · rw [(by omega : (y - i).toNat = 0), List.drop_zero]
  | succ f ih =>
    intro i st hf hs hnp
    have h64 : readBufSize = 65536 := rfl
    by_cases hiy : i < y
    · have hrs : (min (y - i) readBufSize).toNat ≤ st.epf.length := by
        omega
      have hrspos : 0 < min (y - i) readBufSize := by
        omega
      obtain ⟨st', heq, hnp', hop', hcpf', hdpf', hbuf8', hepf', hpos'⟩ :=
        ih (i + readBufSize)
          { st with
            epf := st.epf.drop (min (y - i) readBufSize).toNat,
            readBuf := bufOverwrite st.readBuf
              (st.epf.take (min (y - i) readBufSize).toNat),
            res := ⟨overwriteAt st.res.buf st.newpos.toNat
              (bufTake (bufOverwrite st.readBuf
                (st.epf.take (min (y - i) readBufSize).toNat))
                (min (y - i) readBufSize).toNat), st.res.pos⟩,
            newpos := st.newpos + min (y - i) readBufSize,
            oldpos := st.oldpos + min (y - i) readBufSize }
          (by omega)
          (by simp only [List.length_drop]; omega)
          (by simp only; omega)
      simp only at hnp' hop' hepf'
      refine ⟨st', ?_, ?_, ?_, hcpf', hdpf', hbuf8', ?_, hpos'⟩
      · simp only [extraPhase]
        rw [if_pos hiy]
        rw [readFull, if_pos hrs, goRes_bind_ok]
        rw [BW_writeAt_nonneg _ _ _ hnp, goRes_bind_ok]
        exact heq
      · omega
      · omega
      · rw [hepf', List.drop_drop]
        congr 1
        omega
    · refine ⟨st, ?_, by omega, by omega, rfl, rfl, rfl, ?_, rfl⟩
      · simp only [extraPhase]
        rw [if_neg hiy]
      · rw [(by omega : (y - i).toNat = 0), List.drop_zero]

theorem getD_take (l : List Nat) (n j : Nat) (h : j < n) :
    (l.take n).getD j 0 = l.getD j 0 := by
  rw [List.getD_eq_getElem?_getD, List.getElem?_take_of_lt h,
    ← List.getD_eq_getElem?_getD]

theorem getD_drop (l : List Nat) (n j : Nat) :
    (l.drop n).getD j 0 = l.getD (n + j) 0 := by
  rw [List.getD_eq_getElem?_getD, List.getElem?_drop,
    ← List.getD_eq_getElem?_getD]

theorem getD_lt_256 {l : List Nat} (h : ∀ b ∈ l, b < 256) {j : Nat}
    (hj : j < l.length) : l.getD j 0 < 256 := by
  rw [List.getD_eq_getElem _ _ hj]
  exact h _ (List.getElem_mem hj)

set_option maxHeartbeats 2000000 in
/-- Success, cursor accounting and written content of the applier's diff
phase.  With enough diff-stream bytes (of byte values) and a nonnegative
`newpos`, every chunk succeeds regardless of `oldpos`; the sink below
`newpos` is untouched; and each written byte is the diff-stream byte plus
the `old` byte the chunked `ReadAt` could deliver: for a nonnegative
`oldpos` that is `old[oldpos+j]` when it exists and 0 past the end, and for
a read window entirely at negative offsets nothing is added at all. -/
theorem diffPhase_spec (oldfile : List Nat) (x : Int) :
    ∀ fuel : Nat, ∀ i : Int, ∀ st : PState,
      (x - i).toNat ≤ 65536 * fuel →
      (x - i).toNat ≤ st.dpf.length →
      0 ≤ st.newpos →
      (∀ b ∈ st.dpf, b < 256) →
      ∃ st', diffPhase oldfile x (fuel + 1) i st = .ok st' ∧
        st'.newpos = st.newpos + max (x - i) 0 ∧
        st'.oldpos = st.oldpos + max (x - i) 0 ∧
        st'.cpf = st.cpf ∧ st'.epf = st.epf ∧ st'.buf8 = st.buf8 ∧
        st'.dpf = st.dpf.drop (x - i).toNat ∧
        st'.res.pos = st.res.pos ∧
        (∀ j : Nat, j < st.newpos.toNat →
          st'.res.buf.getD j 0 = st.res.buf.getD j 0) ∧
        (0 ≤ st.oldpos → ∀ j : Int, 0 ≤ j → j < x - i →
          st'.res.buf.getD (st.newpos + j).toNat 0 =
            (st.dpf.getD j.toNat 0 + oldByte oldfile (st.oldpos + j)) % 256) ∧
        (st.oldpos + (x - i) ≤ 0 → ∀ j : Int, 0 ≤ j → j < x - i →
          st'.res.buf.getD (st.newpos + j).toNat 0 =
            st.dpf.getD j.toNat 0) := by
  intro fuel
  induction fuel with
  | zero =>
    intro i st hf hs hnp hbytes
    refine ⟨st, ?_, by omega, by omega, rfl, rfl, rfl, ?_, rfl,
      fun j hj => rfl, fun _ j hj0 hjx => by omega,
      fun _ j hj0 hjx => by omega⟩
    · simp only [diffPhase]
      rw [if_neg (by omega)]
    · rw [(by omega : (x - i).toNat = 0), List.drop_zero]
  | succ f ih =>
    intro i st hf hs hnp hbytes
    have h64 : readBufSize = 65536 := rfl
    by_cases hiy : i < x
    · have hrsle : (min (x - i) readBufSize).toNat ≤ st.dpf.length := by
        omega
      have hbs : (st.dpf.take (min (x - i) readBufSize).toNat).length =
          (min (x - i) readBufSize).toNat := by
        simp only [List.length_take]
        omega
      obtain ⟨st', heq, hnp', hop', hcpf', hepf', hbuf8', hdpf', hpos',
          hlow', hA', hC'⟩ :=
        ih (i + readBufSize)
          { st with
            dpf := st.dpf.drop (min (x - i) readBufSize).toNat,
            readBuf := bufOverwrite st.readBuf
              (readAtOld oldfile st.oldpos (min (x - i) readBufSize).toNat),
            readBufPatch := fun j =>
              if j < (readAtOld oldfile st.oldpos
                  (min (x - i) readBufSize).toNat).length then
                (bufOverwrite st.readBufPatch
                    (st.dpf.take (min (x - i) readBufSize).toNat) j +
                  bufOverwrite st.readBuf
                    (readAtOld oldfile st.oldpos
                      (min (x - i) readBufSize).toNat) j) % 256
              else bufOverwrite st.readBufPatch
                (st.dpf.take (min (x - i) readBufSize).toNat) j,
            res := ⟨overwriteAt st.res.buf st.newpos.toNat
              (bufTake (fun j =>
                if j < (readAtOld oldfile st.oldpos
                    (min (x - i) readBufSize).toNat).length then
                  (bufOverwrite st.readBufPatch
                      (st.dpf.take (min (x - i) readBufSize).toNat) j +
                    bufOverwrite st.readBuf
                      (readAtOld oldfile st.oldpos
                        (min (x - i) readBufSize).toNat) j) % 256
                else bufOverwrite st.readBufPatch
                  (st.dpf.take (min (x - i) readBufSize).toNat) j)
                (min (x - i) readBufSize).toNat), st.res.pos⟩,
            newpos := st.newpos + min (x - i) readBufSize,
            oldpos := st.oldpos + min (x - i) readBufSize }
          (by omega)
          (by simp only [List.length_drop]; omega)
          (by simp only; omega)
          (fun b hb => hbytes b (List.drop_subset _ _ hb))
      simp only at hnp' hop' hdpf' hlow' hA' hC'
      refine ⟨st', ?_, ?_, ?_, hcpf', hepf', hbuf8', ?_, hpos', ?_, ?_, ?_⟩
      · simp only [diffPhase]
        rw [if_pos hiy]
        rw [readFull, if_pos hrsle, goRes_bind_ok]
        rw [BW_writeAt_nonneg _ _ _ hnp, goRes_bind_ok]
        exact heq
      · omega
      · omega
      · rw [hdpf', List.drop_drop]
        congr 1
        omega
      · -- untouched region below st.newpos
        intro j hj
        rw [hlow' j (by omega)]
        rw [overwriteAt_getD]
        rw [if_neg (by rw [bufTake_length]; omega)]
      · -- case A: 0 ≤ oldpos
        intro hop0 j hj0 hjx
        have hrb : readAtOld oldfile st.oldpos
            (min (x - i) readBufSize).toNat =
            (oldfile.drop st.oldpos.toNat).take
              (min (x - i) readBufSize).toNat := by
          rw [readAtOld, if_neg (by omega)]
        have hrblen : (readAtOld oldfile st.oldpos
            (min (x - i) readBufSize).toNat).length =
            min (min (x - i) readBufSize).toNat
              (oldfile.length - st.oldpos.toNat) := by
          rw [hrb]; simp [List.length_take, List.length_drop]
        by_cases hcase : j < min (x - i) readBufSize
        · rw [hlow' (st.newpos + j).toNat (by omega)]
          rw [overwriteAt_getD]
          rw [if_pos ⟨by omega, by rw [bufTake_length]; omega⟩]
          rw [(by omega : (st.newpos + j).toNat - st.newpos.toNat = j.toNat)]
          rw [bufTake_getD, if_pos (by omega)]
          by_cases hin : j.toNat < (readAtOld oldfile st.oldpos
              (min (x - i) readBufSize).toNat).length
          · rw [if_pos hin]
            simp only [bufOverwrite]
            rw [if_pos (by rw [hbs]; omega), if_pos hin]
            rw [getD_take _ _ _ (by omega)]
            rw [hrb, getD_take _ _ _ (by rw [hrblen] at hin; omega), getD_drop]
            rw [oldByte, if_pos ⟨by omega, by rw [hrblen] at hin; omega⟩]
            rw [(by omega : st.oldpos.toNat + j.toNat = (st.oldpos + j).toNat)]
          · rw [if_neg hin]
            simp only [bufOverwrite]
            rw [if_pos (by rw [hbs]; omega)]
            rw [getD_take _ _ _ (by omega)]
            rw [oldByte, if_neg (by rw [hrblen] at hin; omega)]
            rw [Nat.add_zero, Nat.mod_eq_of_lt (getD_lt_256 hbytes (by omega))]
        · have hh := hA' (by omega)
            (j - min (x - i) readBufSize)
            (by omega)
            (by omega)
          rw [(by omega : st.newpos + min (x - i) readBufSize +
            (j - min (x - i) readBufSize) = st.newpos + j)] at hh
          rw [(by omega : st.oldpos + min (x - i) readBufSize +
            (j - min (x - i) readBufSize) = st.oldpos + j)] at hh
          rw [getD_drop] at hh
          rw [(by omega :
            (min (x - i) readBufSize).toNat +
              (j - min (x - i) readBufSize).toNat = j.toNat)] at hh
          exact hh
      · -- case C: window fully negative
        intro hopneg j hj0 hjx
        have hrb0 : readAtOld oldfile st.oldpos
            (min (x - i) readBufSize).toNat = [] := by
          rw [readAtOld, if_pos (by omega)]
        by_cases hcase : j < min (x - i) readBufSize
        · rw [hlow' (st.newpos + j).toNat (by omega)]
          rw [overwriteAt_getD]
          rw [if_pos ⟨by omega, by rw [bufTake_length]; omega⟩]
          rw [(by omega : (st.newpos + j).toNat - st.newpos.toNat = j.toNat)]
          rw [bufTake_getD, if_pos (by omega)]
          rw [if_neg (by rw [hrb0]; simp)]
          simp only [bufOverwrite]
          rw [if_pos (by rw [hbs]; omega)]
          rw [getD_take _ _ _ (by omega)]
        · have hh := hC' (by omega)
            (j - min (x - i) readBufSize)
            (by omega)
            (by omega)
          rw [(by omega : st.newpos + min (x - i) readBufSize +
            (j - min (x - i) readBufSize) = st.newpos + j)] at hh
          rw [getD_drop] at hh
          rw [(by omega :
            (min (x - i) readBufSize).toNat +
              (j - min (x - i) readBufSize).toNat = j.toNat)] at hh
          exact hh
    · refine ⟨st, ?_, by omega, by omega, rfl, rfl, rfl, ?_, rfl,
        fun j hj => rfl, fun _ j hj0 hjx => by omega,
        fun _ j hj0 hjx => by omega⟩
      · simp only [diffPhase]
        rw [if_neg hiy]
      · rw [(by omega : (x - i).toNat = 0), List.drop_zero]

/-- C7: during the applier's diff phase, reading `old` past its end or at
negative offsets is never an error.  For any `oldpos` the phase completes
normally (given enough diff-stream bytes); when `oldpos` is nonnegative each
output byte is the diff byte plus `old[oldpos+j]` where that byte exists and
plus zero past the end of `old`, and when the whole window sits at negative
offsets every output byte equals the diff-stream byte unchanged. -/
theorem diffPhase_tolerates_out_of_range (oldfile : List Nat) (x : Int)
    (st : PState) (hx : 0 ≤ x) (hs : x.toNat ≤ st.dpf.length)
    (hnp : 0 ≤ st.newpos) (hbytes : ∀ b ∈ st.dpf, b < 256) :
    ∃ st', diffPhase oldfile x (chunkFuel x) 0 st = .ok st' ∧
      st'.newpos = st.newpos + x ∧ st'.oldpos = st.oldpos + x ∧
      (0 ≤ st.oldpos → ∀ j : Int, 0 ≤ j → j < x →
        st'.res.buf.getD (st.newpos + j).toNat 0 =
          (st.dpf.getD j.toNat 0 + oldByte oldfile (st.oldpos + j)) % 256) ∧
      (st.oldpos + x ≤ 0 → ∀ j : Int, 0 ≤ j → j < x →
        st'.res.buf.getD (st.newpos + j).toNat 0 = st.dpf.getD j.toNat 0) := by
  have hfuel : chunkFuel x = (x.toNat / (64 * 1024) + 1) + 1 := by
    simp [chunkFuel]
  obtain ⟨st', heq, hnp', hop', _, _, _, _, _, _, hA, hC⟩ :=
    diffPhase_spec oldfile x (x.toNat / (64 * 1024) + 1) 0 st
      (by omega) (by omega) hnp hbytes
  rw [hfuel]
  exact ⟨st', heq, by omega, by omega,
    fun h0 j hj0 hjx => hA h0 j hj0 (by omega),
    fun h0 j hj0 hjx => hC (by omega) j hj0 (by omega)⟩

/-- Witness for C7: `old = [5]`, two diff bytes, `oldpos = -7` (the whole
window at negative offsets), `newpos = 0`. -/
theorem diffPhase_tolerates_out_of_range_witness :
    ∃ st', diffPhase [5] 2 (chunkFuel 2) 0
        { cpf := [], dpf := [10, 20], epf := [], buf8 := List.replicate 8 0,
          readBuf := fun _ => 0, readBufPatch := fun _ => 0,
          res := ⟨[], 0⟩, newpos := 0, oldpos := -7 } = .ok st' ∧
      st'.newpos = 0 + 2 ∧ st'.oldpos = -7 + 2 ∧
      (0 ≤ (-7 : Int) → ∀ j : Int, 0 ≤ j → j < 2 →
        st'.res.buf.getD ((0 : Int) + j).toNat 0 =
          (([10, 20] : List Nat).getD j.toNat 0 + oldByte [5] (-7 + j)) % 256) ∧
      ((-7 : Int) + 2 ≤ 0 → ∀ j : Int, 0 ≤ j → j < 2 →
        st'.res.buf.getD ((0 : Int) + j).toNat 0 =
          ([10, 20] : List Nat).getD j.toNat 0) :=
  diffPhase_tolerates_out_of_range [5] 2
    { cpf := [], dpf := [10, 20], epf := [], buf8 := List.replicate 8 0,
      readBuf := fun _ => 0, readBufPatch := fun _ => 0,
      res := ⟨[], 0⟩, newpos := 0, oldpos := -7 }
    (by norm_num) (by norm_num) (by norm_num) (by decide)

/-- C9: a control triple with `x, y ≥ 0` fully processed without error
advances `oldpos` by exactly `x + z` net: by `x` during the diff phase, by a
further `y` during the verbatim extra-copy phase, and by `z - y` in the
final adjustment. -/
theorem processTriple_oldpos_advance (oldfile : List Nat)
    (newsize x y z : Int) (st : PState)
    (hx : 0 ≤ x) (hy : 0 ≤ y) (hnp : 0 ≤ st.newpos)
    (hbound : st.newpos + x + y ≤ newsize)
    (hds : x.toNat ≤ st.dpf.length) (hes : y.toNat ≤ st.epf.length)
    (hbytes : ∀ b ∈ st.dpf, b < 256) :
    ∃ st2 st3, diffPhase oldfile x (chunkFuel x) 0 st = .ok st2 ∧
      st2.oldpos = st.oldpos + x ∧
      extraPhase y (chunkFuel y) 0 st2 = .ok st3 ∧
      st3.oldpos = st.oldpos + x + y ∧
      processTriple oldfile newsize x y z st =
        .ok { st3 with oldpos := st3.oldpos + (z - y) } ∧
      st3.oldpos + (z - y) = st.oldpos + (x + z) := by
  have hfx : chunkFuel x = (x.toNat / (64 * 1024) + 1) + 1 := by
    simp [chunkFuel]
  have hfy : chunkFuel y = (y.toNat / (64 * 1024) + 1) + 1 := by
    simp [chunkFuel]
  obtain ⟨st2, heq2, hnp2, hop2, _, hepf2, _, _, _, _, _⟩ :=
    diffPhase_spec oldfile x (x.toNat / (64 * 1024) + 1) 0 st
      (by omega) (by omega) hnp hbytes
  obtain ⟨st3, heq3, hnp3, hop3, _, _, _, _⟩ :=
    extraPhase_spec y (y.toNat / (64 * 1024) + 1) 0 st2 (by omega)
      (by rw [hepf2]; omega) (by omega)
  refine ⟨st2, st3, by rw [hfx]; exact heq2, by omega,
    by rw [hfy]; exact heq3, by omega, ?_, by omega⟩
  simp only [processTriple]
  rw [if_neg (by omega)]
  rw [hfx, heq2, goRes_bind_ok]
  rw [if_neg (by omega)]
  rw [hfy, heq3, goRes_bind_ok]

/-- Witness for C9: `old = [1]`, triple `(1, 1, 0)`, `newsize = 2`, diff
stream `[7]`, extra stream `[9]`. -/
theorem processTriple_oldpos_advance_witness :
    ∃ st2 st3, diffPhase [1] 1 (chunkFuel 1) 0
        { cpf := [], dpf := [7], epf := [9], buf8 := List.replicate 8 0,
          readBuf := fun _ => 0, readBufPatch := fun _ => 0,
          res := ⟨[0, 0], 0⟩, newpos := 0, oldpos := 0 } = .ok st2 ∧
      st2.oldpos = 0 + 1 ∧
      extraPhase 1 (chunkFuel 1) 0 st2 = .ok st3 ∧
      st3.oldpos = 0 + 1 + 1 ∧
      processTriple [1] 2 1 1 0
          { cpf := [], dpf := [7], epf := [9], buf8 := List.replicate 8 0,
            readBuf := fun _ => 0, readBufPatch := fun _ => 0,
            res := ⟨[0, 0], 0⟩, newpos := 0, oldpos := 0 } =
        .ok { st3 with oldpos := st3.oldpos + (0 - 1) } ∧
      st3.oldpos + (0 - 1) = 0 + (1 + 0) :=
  processTriple_oldpos_advance [1] 2 1 1 0
    { cpf := [], dpf := [7], epf := [9], buf8 := List.replicate 8 0,
      readBuf := fun _ => 0, readBufPatch := fun _ => 0,
      res := ⟨[0, 0], 0⟩, newpos := 0, oldpos := 0 }
    (by norm_num) (by norm_num) (by norm_num) (by norm_num) (by decide)
    (by decide) (by decide)

/-- C10: a decoded control triple with `x < 0` or `y < 0` is not rejected:
the sanity checks pass (given `newpos ≤ newsize`), the corresponding phase
performs no iteration — leaving the whole state, in particular `newpos` and
the sink, unchanged — and the final `oldpos += z - y` adjustment is still
applied, so a negative `y` increases `oldpos` beyond `z`. -/
theorem processTriple_negative_xy (oldfile : List Nat) (newsize x y z : Int)
    (st : PState) (hns : st.newpos ≤ newsize) :
    (x < 0 → ¬ st.newpos + x > newsize ∧
      diffPhase oldfile x (chunkFuel x) 0 st = .ok st) ∧
    (y < 0 → ¬ st.newpos + y > newsize ∧
      extraPhase y (chunkFuel y) 0 st = .ok st) ∧
    (x < 0 → y < 0 →
      processTriple oldfile newsize x y z st =
        .ok { st with oldpos := st.oldpos + (z - y) } ∧
      st.oldpos + z < st.oldpos + (z - y)) := by
  have hfx : chunkFuel x = (x.toNat / (64 * 1024) + 1) + 1 := by
    simp [chunkFuel]
  have hfy : chunkFuel y = (y.toNat / (64 * 1024) + 1) + 1 := by
    simp [chunkFuel]
  refine ⟨fun hx => ⟨by omega, ?_⟩, fun hy => ⟨by omega, ?_⟩,
    fun hx hy => ⟨?_, by omega⟩⟩
  · rw [hfx]
    simp only [diffPhase]
    rw [if_neg (by omega)]
  · rw [hfy]
    simp only [extraPhase]
    rw [if_neg (by omega)]
  · simp only [processTriple]
    rw [if_neg (by omega)]
    rw [hfx]
    simp only [diffPhase]
    rw [if_neg (by omega), goRes_bind_ok]
    rw [if_neg (by omega)]
    rw [hfy]
    simp only [extraPhase]
    rw [if_neg (by omega), goRes_bind_ok]

/-- Witness for C10: triple `(-1, -2, 5)` against `newsize = 3` at
`newpos = 0`. -/
theorem processTriple_negative_xy_witness :
    ((-1 : Int) < 0 → ¬ (0 : Int) + (-1) > 3 ∧
      diffPhase [1] (-1) (chunkFuel (-1)) 0
        { cpf := [], dpf := [], epf := [], buf8 := List.replicate 8 0,
          readBuf := fun _ => 0, readBufPatch := fun _ => 0,
          res := ⟨[], 0⟩, newpos := 0, oldpos := 4 } =
        .ok { cpf := [], dpf := [], epf := [], buf8 := List.replicate 8 0,
              readBuf := fun _ => 0, readBufPatch := fun _ => 0,
              res := ⟨[], 0⟩, newpos := 0, oldpos := 4 }) ∧
    ((-2 : Int) < 0 → ¬ (0 : Int) + (-2) > 3 ∧
      extraPhase (-2) (chunkFuel (-2)) 0
        { cpf := [], dpf := [], epf := [], buf8 := List.replicate 8 0,
          readBuf := fun _ => 0, readBufPatch := fun _ => 0,
          res := ⟨[], 0⟩, newpos := 0, oldpos := 4 } =
        .ok { cpf := [], dpf := [], epf := [], buf8 := List.replicate 8 0,
              readBuf := fun _ => 0, readBufPatch := fun _ => 0,
              res := ⟨[], 0⟩, newpos := 0, oldpos := 4 }) ∧
    ((-1 : Int) < 0 → (-2 : Int) < 0 →
      processTriple [1] 3 (-1) (-2) 5
          { cpf := [], dpf := [], epf := [], buf8 := List.replicate 8 0,
            readBuf := fun _ => 0, readBufPatch := fun _ => 0,
            res := ⟨[], 0⟩, newpos := 0, oldpos := 4 } =
        .ok { cpf := [], dpf := [], epf := [], buf8 := List.replicate 8 0,
              readBuf := fun _ => 0, readBufPatch := fun _ => 0,
              res := ⟨[], 0⟩, newpos := 0, oldpos := 4 + (5 - -2) } ∧
      (4 : Int) + 5 < 4 + (5 - -2)) :=
  processTriple_negative_xy [1] 3 (-1) (-2) 5
    { cpf := [], dpf := [], epf := [], buf8 := List.replicate 8 0,
      readBuf := fun _ => 0, readBufPatch := fun _ => 0,
      res := ⟨[], 0⟩, newpos := 0, oldpos := 4 }
    (by norm_num)

theorem readCtrlOne_of_length (cpf buf8 : List Nat) (h : 8 ≤ cpf.length) :
    readCtrlOne cpf buf8 =
      .ok (cpf.drop 8, cpf.take 8, offtin (cpf.take 8)) := by
  simp only [readCtrlOne, readFull, if_pos h, goRes_bind_ok]

/-- Unfolding of the applier's loop when the first control triple's `x`
already violates the sanity check. -/
theorem patchLoop_first_triple_x (oldfile : List Nat) (newsize : Int)
    (fuel : Nat) (st : PState) (henter : st.newpos < newsize)
    (hcs : 24 ≤ st.cpf.length)
    (hx : st.newpos + offtin (st.cpf.take 8) > newsize) :
    patchLoop oldfile newsize (fuel + 1) st = .error .err := by
  simp only [patchLoop]
  rw [if_pos henter]
  rw [readCtrlOne_of_length _ _ (by omega), goRes_bind_ok]
  rw [readCtrlOne_of_length _ _ (by simp only [List.length_drop]; omega),
    goRes_bind_ok]
  rw [readCtrlOne_of_length _ _ (by simp only [List.length_drop]; omega),
    goRes_bind_ok]
  simp only [processTriple]
  rw [if_pos hx]
  rfl

/-- C5: the applier returns an error value (`Outcome.err`, not success and
not a panic) on each malformed input: a patch shorter than 32 bytes; a patch
whose first 8 bytes are not `"BSDIFF40"`; a header whose `bzctrllen`,
`bzdatalen` or `newsize` field decodes negative; a first control triple
whose `x` added to `newpos = 0` exceeds `newsize`; and, at the triple level,
any triple whose `x` (or, after the diff phase, `y`) added to the current
`newpos` exceeds `newsize`. -/
theorem patchb_rejects_malformed :
    (∀ oldfile patch : List Nat, patch.length < 32 →
      patchb oldfile patch = .error .err) ∧
    (∀ oldfile patch : List Nat, patch.take 8 ≠ magic →
      patchb oldfile patch = .error .err) ∧
    (∀ oldfile patch : List Nat, 32 ≤ patch.length →
      (offtin ((patch.take 32).drop 8) < 0 ∨
        offtin ((patch.take 32).drop 16) < 0 ∨
        offtin ((patch.take 32).drop 24) < 0) →
      patchb oldfile patch = .error .err) ∧
    (∀ oldfile patch : List Nat,
      32 ≤ patch.length → patch.take 8 = magic →
      0 ≤ offtin ((patch.take 32).drop 8) →
      0 ≤ offtin ((patch.take 32).drop 16) →
      0 < offtin ((patch.take 32).drop 24) →
      24 ≤ ((patch.drop 32).take
        (offtin ((patch.take 32).drop 8)).toNat).length →
      offtin (((patch.drop 32).take
          (offtin ((patch.take 32).drop 8)).toNat).take 8) >
        offtin ((patch.take 32).drop 24) →
      patchb oldfile patch = .error .err) ∧
    (∀ (oldfile : List Nat) (newsize x y z : Int) (st : PState),
      st.newpos + x > newsize →
      processTriple oldfile newsize x y z st = .error .err) ∧
    (∀ (oldfile : List Nat) (newsize x y z : Int) (st st2 : PState),
      ¬ st.newpos + x > newsize →
      diffPhase oldfile x (chunkFuel x) 0 st = .ok st2 →
      st2.newpos + y > newsize →
      processTriple oldfile newsize x y z st = .error .err) := by
  have htt : ∀ patch : List Nat, (patch.take 32).take 8 = patch.take 8 := by
    intro p
    rw [List.take_take]
    norm_num
  have part1 : ∀ oldfile patch : List Nat, patch.length < 32 →
      patchb oldfile patch = .error .err := by
    intro o p h
    simp only [patchb]
    rw [if_pos h]
  have part2 : ∀ oldfile patch : List Nat, patch.take 8 ≠ magic →
      patchb oldfile patch = .error .err := by
    intro o p h
    by_cases h32 : p.length < 32
    · exact part1 o p h32
    · simp only [patchb]
      rw [if_neg h32, if_pos (by rw [htt p]; exact h)]
  refine ⟨part1, part2, ?_, ?_, ?_, ?_⟩
  · intro o p h32 hneg
    by_cases hm : p.take 8 = magic
    · simp only [patchb]
      rw [if_neg (by omega), if_neg (by rw [htt p]; simp [hm]),
        if_pos hneg]
    · exact part2 o p hm
  · intro o p h32 hm hc hd hns hcs hx
    simp only [patchb]
    rw [if_neg (by omega), if_neg (by rw [htt p]; simp [hm]),
      if_neg (by omega)]
    rw [BW_writeAt_nonneg _ _ _ (by omega), goRes_bind_ok]
    rw [(by omega : p.length + (offtin ((p.take 32).drop 24)).toNat + 8 =
      (p.length + (offtin ((p.take 32).drop 24)).toNat + 7) + 1)]
    rw [patchLoop_first_triple_x o _ _ _ hns hcs
      (show (0 : Int) + offtin (((p.drop 32).take
          (offtin ((p.take 32).drop 8)).toNat).take 8) >
        offtin ((p.take 32).drop 24) by omega)]
    rfl
  · intro o ns x y z st hx
    simp only [processTriple]
    rw [if_pos hx]
  · intro o ns x y z st st2 hx heq hy
    simp only [processTriple]
    rw [if_neg hx, heq, goRes_bind_ok, if_pos hy]

/-- Witness for C5: concrete instances of each rejection.  The patch for the
triple case declares `bzctrllen = 24`, `newsize = 1` and a first triple with
`x = 9`. -/
theorem patchb_rejects_malformed_witness :
    patchb [] [1, 2, 3] = .error .err ∧
    patchb [] (List.replicate 40 0) = .error .err ∧
    patchb [] (magic ++ offtout 24 ++ offtout 0 ++ offtout (-1) ++
      List.replicate 24 0) = .error .err ∧
    patchb [] (magic ++ offtout 24 ++ offtout 0 ++ offtout 1 ++
      offtout 9 ++ offtout 0 ++ offtout 0) = .error .err :=
  ⟨patchb_rejects_malformed.1 [] [1, 2, 3] (by norm_num),
   patchb_rejects_malformed.2.1 [] (List.replicate 40 0) (by decide),
   patchb_rejects_malformed.2.2.1 [] _ (by decide) (by decide),
   patchb_rejects_malformed.2.2.2.1 [] _ (by decide) (by decide) (by decide)
     (by decide) (by decide) (by decide) (by decide)⟩
